import Mathlib

/-!
Shallow embedding of the smllr duplicate-file finder (Rust) into Lean 4.

The embedding follows the sources:
  * `src/vfs/test_fs.rs`   — in-memory test VFS (`TestMD`, `TestFile`, `TestFileSystem`)
  * `src/catalog/mod.rs`   — `FileCataloger`
  * `src/actor/selector.rs` — `PathSelect` (and the commented-out `DateSelect`)
Rust `HashMap`s are modelled as insertion-ordered association lists; where a
claim depends on the run-to-run iteration order of `std::collections::HashMap`
(which is randomized by `RandomState`), the iteration order is made an explicit
parameter constrained to be a permutation of the key set.
Panics (`unwrap` / `expect`) are modelled by `Option`; `io::Result` by `Except`.
Machine integers (`u64`) are modelled by `Nat` (no arithmetic in the sources
can overflow or wrap; only equality and ordering are used).
-/

/-- `io::ErrorKind` as used by the sources: `NotFound`, `Other` (used for the
missing-metadata error), and a raw OS error code (code 40 = ELOOP is used for
symlink loops). -/
inductive IoErr where
  | notFound
  | other
  | osError (code : Nat)
  deriving DecidableEq, Repr

/-- `FileType` from `vfs/mod.rs` (declaration absent from src; the three
variants are used throughout `test_fs.rs`). -/
inductive FileType where
  | file
  | dir
  | symlink
  deriving DecidableEq, Repr

/-- `ID { dev: u64, inode: u64 }` from `helpers`: unique filesystem object
identity. -/
structure ID where
  dev : Nat
  inode : Nat
  deriving DecidableEq, Repr

/-- A Rust `Path`, abstracted to whether it is absolute (starts with the
`RootDir` component) and its list of normal components.  `components().count()`
and `parent()` below follow Rust `std::path::Path` semantics on such paths. -/
structure TPath where
  root : Bool
  comps : List String
  deriving DecidableEq, Repr

namespace TPath

/-- `Path::components().count()`: the `RootDir` component counts. -/
def componentCount (p : TPath) : Nat :=
  (if p.root then 1 else 0) + p.comps.length

/-- `Path::parent()`: drop the last normal component; `None` when there are no
normal components (the root path and the empty path have no parent). -/
def parent (p : TPath) : Option TPath :=
  match p.comps with
  | [] => none
  | _ :: _ => some ⟨p.root, p.comps.dropLast⟩

end TPath

/-- Association list model of `std::collections::HashMap` lookups: first
binding of the key wins. -/
def alGet {α β : Type} [DecidableEq α] (k : α) : List (α × β) → Option β
  | [] => none
  | (k', v) :: rest => if k = k' then some v else alGet k rest

/-- Association list model of `HashMap::insert`: replace the binding in place
when the key is present, append otherwise. -/
def alInsert {α β : Type} [DecidableEq α] (k : α) (v : β) : List (α × β) → List (α × β)
  | [] => [(k, v)]
  | (k', v') :: rest =>
      if k = k' then (k, v) :: rest else (k', v') :: alInsert k v rest

theorem alGet_insert_self {α β : Type} [DecidableEq α] (k : α) (v : β)
    (m : List (α × β)) : alGet k (alInsert k v m) = some v := by
  induction m with
  | nil => simp [alInsert, alGet]
  | cons hd tl ih =>
      obtain ⟨k', v'⟩ := hd
      by_cases h : k = k' <;> simp [alInsert, alGet, h, ih]

theorem alGet_insert_ne {α β : Type} [DecidableEq α] {k q : α} (v : β)
    (m : List (α × β)) (h : q ≠ k) : alGet q (alInsert k v m) = alGet q m := by
  induction m with
  | nil => simp [alInsert, alGet, h]
  | cons hd tl ih =>
      obtain ⟨k', v'⟩ := hd
      by_cases hk : k = k'
      · subst hk
        simp [alInsert, alGet, h]
      · by_cases hq : q = k' <;> simp [alInsert, alGet, hk, hq, ih]

theorem alInsert_length_of_notMem {α β : Type} [DecidableEq α] (k : α) (v : β)
    (m : List (α × β)) (h : alGet k m = none) :
    (alInsert k v m).length = m.length + 1 := by
  induction m with
  | nil => simp [alInsert]
  | cons hd tl ih =>
      obtain ⟨k', v'⟩ := hd
      by_cases hk : k = k'
      · simp [alGet, hk] at h
      · simp [alGet, hk] at h
        simp [alInsert, hk, ih h]

/-- Modelled from the spec: `FIRST_K_BYTES` is declared in `vfs/mod.rs`, which
is absent from src; the spec fixes K = 4096 in the reference implementation. -/
def FIRST_K_BYTES : Nat := 4096

/-- `TestMD` from `test_fs.rs`: mock metadata. `SystemTime` is modelled as a
`Nat` (seconds since `UNIX_EPOCH`); `len` (`u64`) as a `Nat`. -/
structure TestMD where
  len : Nat
  creation : Nat
  kind : FileType
  id : ID
  deriving DecidableEq, Repr

namespace TestMD

def get_len (md : TestMD) : Nat := md.len

def get_creation_time (md : TestMD) : Except IoErr Nat := Except.ok md.creation

def get_type (md : TestMD) : FileType := md.kind

def get_inode (md : TestMD) : Nat := md.id.inode

def get_device (md : TestMD) : Except IoErr Nat := Except.ok md.id.dev

end TestMD

/-- `TestFile` from `test_fs.rs`: a mock file.  File contents
(`Option<String>`) are modelled as an optional list of byte values. -/
structure TestFile where
  path : TPath
  contents : Option (List Nat)
  kind : FileType
  inode : Nat
  metadata : Option TestMD
  deriving DecidableEq, Repr

/-- The overwrite performed by
`for (c, b) in cont.bytes().zip(bytes.iter_mut()) { *b = c }`:
replace a prefix of `bs` by `cont`, stopping at the shorter of the two. -/
def zipOverwrite : List Nat → List Nat → List Nat
  | [], bs => bs
  | _, [] => []
  | c :: cs, _ :: bs => c :: zipOverwrite cs bs

namespace TestFile

def get_path (f : TestFile) : TPath := f.path

def get_inode (f : TestFile) : Except IoErr Nat := Except.ok f.inode

def get_type (f : TestFile) : Except IoErr FileType := Except.ok f.kind

def get_metadata (f : TestFile) : Except IoErr TestMD :=
  match f.metadata with
  | some md => Except.ok md
  | none => Except.error IoErr.other

/-- `TestFile::get_first_bytes`: start from `[0u8; FIRST_K_BYTES]` and
overwrite its prefix with the contents; error when no contents are set. -/
def get_first_bytes (f : TestFile) : Except IoErr (List Nat) :=
  match f.contents with
  | some cont => Except.ok (zipOverwrite cont (List.replicate FIRST_K_BYTES 0))
  | none => Except.error IoErr.notFound

/-- `TestFile::get_hash` feeds the contents to the external `md5` crate (out
of scope per the spec).  The digest is modelled as an abstract injective
function of the contents — the identity — which is all the catalog observes
(the spec keeps `Hash` opaque, requiring only equality). -/
def get_hash (f : TestFile) : Except IoErr (List Nat) :=
  match f.contents with
  | some cont => Except.ok cont
  | none => Except.error IoErr.notFound

end TestFile

/-- `TestFileSystem` from `test_fs.rs`: both `HashMap`s modelled as
insertion-ordered association lists. -/
structure TestFileSystem where
  files : List (TPath × TestFile)
  symlinks : List (TPath × (TestFile × TPath))
  deriving DecidableEq, Repr

namespace TestFileSystem

/-- `TestFileSystem::new()` -/
def new : TestFileSystem := ⟨[], []⟩

/-- `get_next_inode`: number of files plus number of symlinks. -/
def get_next_inode (fs : TestFileSystem) : Nat :=
  fs.files.length + fs.symlinks.length

/-- `create_regular(path, kind)`: build metadata (len 0, creation at the
epoch, device 0, fresh inode) and insert the file. -/
def create_regular (fs : TestFileSystem) (path : TPath) (kind : FileType) :
    TestFileSystem :=
  let inode := fs.get_next_inode
  let md : TestMD := { len := 0, creation := 0, kind := kind, id := ⟨0, inode⟩ }
  let tf : TestFile := { path := path, kind := kind, inode := inode,
                         contents := none, metadata := some md }
  { fs with files := alInsert path tf fs.files }

/-- `create_file(path)` -/
def create_file (fs : TestFileSystem) (path : TPath) : TestFileSystem :=
  fs.create_regular path FileType.file

/-- `create_dir(path)` -/
def create_dir (fs : TestFileSystem) (path : TPath) : TestFileSystem :=
  fs.create_regular path FileType.dir

/-- `create_symlink(path, target)`: the symlink entry has a fresh inode and no
metadata. -/
def create_symlink (fs : TestFileSystem) (path target : TPath) : TestFileSystem :=
  let tf : TestFile := { path := path, kind := FileType.symlink,
                         inode := fs.get_next_inode, contents := none,
                         metadata := none }
  { fs with symlinks := alInsert path (tf, target) fs.symlinks }

/-- `add(tf)`: insert a prebuilt file at its own path. -/
def add (fs : TestFileSystem) (tf : TestFile) : TestFileSystem :=
  { fs with files := alInsert tf.path tf fs.files }

/-- The `while let` loop inside `lookup`: `cur` is the current symlink entry,
`seen` the list of targets already visited.  When the current target was
already seen the loop reports a symlink loop (raw OS error 40); when the chain
runs off the symlink map the function falls through to `NotFound`.  The Rust
loop terminates because every iteration pushes a previously unseen target and
continues only when that target is again a symlink key, so it runs at most
`symlinks.length + 1` iterations; the structural `fuel` argument is
initialized above that bound and never runs out. -/
def lookupLoop (syms : List (TPath × (TestFile × TPath))) :
    Nat → List TPath → Option (TestFile × TPath) → Except IoErr TestFile
  | _, _, none => Except.error IoErr.notFound
  | 0, _, some _ => Except.error IoErr.notFound
  | fuel + 1, seen, some c =>
      if c.2 ∈ seen then Except.error (IoErr.osError 40)
      else lookupLoop syms fuel (c.2 :: seen) (alGet c.2 syms)

/-- `TestFileSystem::lookup`: a direct hit in `files` succeeds; otherwise the
symlink chain is traversed only to distinguish a loop error from `NotFound` —
note the loop never returns a file. -/
def lookup (fs : TestFileSystem) (path : TPath) : Except IoErr TestFile :=
  match alGet path fs.files with
  | some tf => Except.ok tf
  | none => lookupLoop fs.symlinks (fs.symlinks.length + 1) [] (alGet path fs.symlinks)

/-- `VFS::get_metadata` for `Rc<TestFileSystem>`: files answer directly; a
symlink delegates to `lookup` on its target; otherwise `NotFound`. -/
def get_metadata (fs : TestFileSystem) (path : TPath) : Except IoErr TestMD :=
  match alGet path fs.files with
  | some f => f.get_metadata
  | none =>
      match alGet path fs.symlinks with
      | some (_, p) => (fs.lookup p).bind TestFile.get_metadata
      | none => Except.error IoErr.notFound

/-- `VFS::get_symlink_metadata`: like `get_metadata` but a symlink answers
with its own entry's metadata. -/
def get_symlink_metadata (fs : TestFileSystem) (path : TPath) : Except IoErr TestMD :=
  match alGet path fs.files with
  | some f => f.get_metadata
  | none =>
      match alGet path fs.symlinks with
      | some (f, _) => f.get_metadata
      | none => Except.error IoErr.notFound

/-- `VFS::read_link` -/
def read_link (fs : TestFileSystem) (path : TPath) : Except IoErr TPath :=
  match alGet path fs.symlinks with
  | some (_, p) => Except.ok p
  | none => Except.error IoErr.notFound

/-- `VFS::get_file`: only the `files` map is consulted. -/
def get_file (fs : TestFileSystem) (p : TPath) : Except IoErr TestFile :=
  match alGet p fs.files with
  | some f => Except.ok f
  | none => Except.error IoErr.notFound

/-- `VFS::list_dir(p)`: every file whose parent is `p` **or whose path has no
parent**, then every symlink whose parent is `p`; the result is always `Ok`. -/
def list_dir (fs : TestFileSystem) (p : TPath) : Except IoErr (List TestFile) :=
  let fileEntries := (fs.files.filter
    (fun e => decide (e.1.parent = some p ∨ e.1.parent = none))).map (·.2)
  let symlinkEntries := (fs.symlinks.filter
    (fun e => decide (e.1.parent = some p))).map (·.2.1)
  Except.ok (fileEntries ++ symlinkEntries)

end TestFileSystem

/-- `Duplicates(Vec<PathBuf>)` from `catalog/proxy.rs` (tuple struct; used as
`dups.0` by the selectors). -/
structure Duplicates where
  paths : List TPath
  deriving DecidableEq, Repr

/-- The accumulator fold underlying `Iterator::min_by` / `max_by`: walk the
list, replacing the accumulator whenever `better x acc` holds. -/
def foldSelect {α : Type} (better : α → α → Bool) : α → List α → α
  | acc, [] => acc
  | acc, x :: xs => foldSelect better (if better x acc then x else acc) xs

/-- `Iterator::min_by` on a score: the accumulator is replaced only by a
strictly smaller element, so the first minimum wins. -/
def minByScore {α : Type} (score : α → Nat) : List α → Option α
  | [] => none
  | a :: rest => some (foldSelect (fun x acc => score x < score acc) a rest)

/-- `Iterator::max_by` on a score: the accumulator is replaced by any element
at least as large, so the last maximum wins. -/
def maxByScore {α : Type} (score : α → Nat) : List α → Option α
  | [] => none
  | a :: rest => some (foldSelect (fun x acc => score acc ≤ score x) a rest)

theorem foldSelect_mem {α : Type} (better : α → α → Bool) (a : α) (l : List α) :
    foldSelect better a l ∈ a :: l := by
  induction l generalizing a with
  | nil => simp [foldSelect]
  | cons x xs ih =>
      simp only [foldSelect]
      split
      · exact List.mem_cons_of_mem a (ih x)
      · rcases List.mem_cons.mp (ih a) with h | h
        · rw [h]; exact List.mem_cons_self a (x :: xs)
        · exact List.mem_cons_of_mem _ (List.mem_cons_of_mem _ h)

theorem foldSelect_min_le {α : Type} (score : α → Nat) (a : α) (l : List α) :
    score (foldSelect (fun x acc => score x < score acc) a l) ≤ score a ∧
      ∀ y ∈ l, score (foldSelect (fun x acc => score x < score acc) a l) ≤ score y := by
  induction l generalizing a with
  | nil => exact ⟨le_refl _, by simp⟩
  | cons x xs ih =>
      simp only [foldSelect]
      constructor
      · split
        · next hb => exact le_trans (ih x).1 (le_of_lt (of_decide_eq_true hb))
        · exact (ih a).1
      · intro y hy
        rcases List.mem_cons.mp hy with rfl | hy
        · split
          · exact (ih y).1
          · next hb =>
              exact le_trans (ih a).1
                (le_of_not_lt (fun hlt => hb (decide_eq_true hlt)))
        · split
          · exact (ih x).2 y hy
          · exact (ih a).2 y hy

theorem foldSelect_max_ge {α : Type} (score : α → Nat) (a : α) (l : List α) :
    score a ≤ score (foldSelect (fun x acc => score acc ≤ score x) a l) ∧
      ∀ y ∈ l, score y ≤ score (foldSelect (fun x acc => score acc ≤ score x) a l) := by
  induction l generalizing a with
  | nil => exact ⟨le_refl _, by simp⟩
  | cons x xs ih =>
      simp only [foldSelect]
      constructor
      · split
        · next hb => exact le_trans (of_decide_eq_true hb) (ih x).1
        · exact (ih a).1
      · intro y hy
        rcases List.mem_cons.mp hy with rfl | hy
        · split
          · exact (ih y).1
          · next hb =>
              exact le_trans (le_of_not_le (fun hle => hb (decide_eq_true hle)))
                (ih a).1
        · split
          · exact (ih x).2 y hy
          · exact (ih a).2 y hy

/-- `PathSelect` from `actor/selector.rs`: a `reverse` flag plus a VFS handle
(the handle is carried but unused by its `select`). -/
structure PathSelect where
  reversed : Bool
  vfs : TestFileSystem

namespace PathSelect

/-- `PathSelect::new(v)`: not reversed. -/
def new (v : TestFileSystem) : PathSelect := ⟨false, v⟩

/-- `PathSelect::reverse(self)`: unconditionally sets the flag. -/
def reverse (s : PathSelect) : PathSelect := ⟨true, s.vfs⟩

/-- `PathSelect::min`: `min_by` on `path.components().count()`; `unwrap`
(modelled as `Option`) panics on an empty group. -/
def min (dups : Duplicates) : Option TPath :=
  minByScore TPath.componentCount dups.paths

/-- `PathSelect::max`: `max_by` on `path.components().count()`. -/
def max (dups : Duplicates) : Option TPath :=
  maxByScore TPath.componentCount dups.paths

/-- `PathSelect::select`: max when reversed, min otherwise. -/
def select (s : PathSelect) (dups : Duplicates) : Option TPath :=
  if s.reversed then max dups else min dups

end PathSelect

/-- Creation time of the file at `p`, through the unwraps of `DateSelect`:
`vfs.get_file(path).unwrap()`, `get_metadata().unwrap()`,
`get_creation_time().unwrap()` (the last never fails on `TestMD`). -/
def dateScore (fs : TestFileSystem) (p : TPath) : Option Nat :=
  match fs.get_file p with
  | Except.ok f =>
      match f.get_metadata with
      | Except.ok md => some md.creation
      | Except.error _ => none
  | Except.error _ => none

/-- The iterator `dups.0.iter().map(|path| (path, self.vfs.get_file(path).unwrap()))`
consumed by `min_by`/`max_by`: each path is paired with its creation time; any
failed unwrap is a panic (`none`). -/
def scorePaths (fs : TestFileSystem) : List TPath → Option (List (TPath × Nat))
  | [] => some []
  | p :: ps =>
      match dateScore fs p with
      | none => none
      | some t => (scorePaths fs ps).map (fun rest => (p, t) :: rest)

/-- Modelled from the spec: the `DateSelect` `impl` block is commented out in
`src/actor/selector.rs`; §4.7 of the spec ("keeper has the newest creation
timestamp; `reverse()` flips to oldest") and the `select_newest` /
`select_oldest` tests fix its behaviour, which also matches the commented-out
code (`select` is `max` by creation time, `min` when reversed). -/
structure DateSelect where
  reversed : Bool
  vfs : TestFileSystem

namespace DateSelect

def new (v : TestFileSystem) : DateSelect := ⟨false, v⟩

def reverse (s : DateSelect) : DateSelect := ⟨true, s.vfs⟩

def min (s : DateSelect) (dups : Duplicates) : Option TPath :=
  (scorePaths s.vfs dups.paths).bind (fun l => (minByScore Prod.snd l).map Prod.fst)

def max (s : DateSelect) (dups : Duplicates) : Option TPath :=
  (scorePaths s.vfs dups.paths).bind (fun l => (maxByScore Prod.snd l).map Prod.fst)

/-- `select`: newest (max) by default, oldest (min) when reversed. -/
def select (s : DateSelect) (dups : Duplicates) : Option TPath :=
  if s.reversed then s.min dups else s.max dups

end DateSelect

/-- Modelled from the spec: `HashProxy` lives in `catalog/proxy.rs`, which is
absent from src.  §4.6: *pending single* stores one `(ID, path)`; *promoted*
maps `Hash → InodeMap` with `InodeMap = ID → Duplicates`. -/
inductive HashProxy where
  | pendingSingle (id : ID) (path : TPath)
  | promoted (map : List (List Nat × List (ID × Duplicates)))

namespace HashProxy

/-- Modelled from the spec: file `(id, path)` with digest `h` into a promoted
map — look up the `Hash` bucket, then the `ID` sub-bucket; append to the
existing `Duplicates` when the `ID` is known, otherwise start a new
`Duplicates{id, [path]}` under that hash (§4.6). -/
def fileInto (m : List (List Nat × List (ID × Duplicates)))
    (h : List Nat) (id : ID) (path : TPath) :
    List (List Nat × List (ID × Duplicates)) :=
  match alGet h m with
  | none => alInsert h [(id, ⟨[path]⟩)] m
  | some im =>
      match alGet id im with
      | none => alInsert h (alInsert id ⟨[path]⟩ im) m
      | some dups => alInsert h (alInsert id ⟨dups.paths ++ [path]⟩ im) m

/-- Modelled from the spec: the digest of the file at `p`, via the VFS; a
failing read is a panic (§4.7 treats unreadable paths as programmer error). -/
def hashOf (fs : TestFileSystem) (p : TPath) : Option (List Nat) :=
  match fs.get_file p with
  | Except.ok f =>
      match f.get_hash with
      | Except.ok h => some h
      | Except.error _ => none
  | Except.error _ => none

/-- Modelled from the spec: `HashProxy::insert` (§4.6).  On the second insert
both the stored and the new file are hashed and filed; on further inserts only
the new file is hashed and filed. -/
def insert (fs : TestFileSystem) (hp : HashProxy) (id : ID) (path : TPath) :
    Option HashProxy :=
  match hp with
  | pendingSingle id0 p0 =>
      match hashOf fs p0, hashOf fs path with
      | some h0, some h =>
          some (promoted (fileInto (fileInto [] h0 id0 p0) h id path))
      | _, _ => none
  | promoted m =>
      match hashOf fs path with
      | some h => some (promoted (fileInto m h id path))
      | none => none

/-- Modelled from the spec: `HashProxy::get_repeats` (§4.6) — for each hash
bucket whose inode map has ≥ 2 entries, emit each `Duplicates` in that bucket;
single-inode buckets are never emitted. -/
def get_repeats (hp : HashProxy) : List Duplicates :=
  match hp with
  | pendingSingle _ _ => []
  | promoted m =>
      ((m.filter (fun e => 2 ≤ e.2.length)).map (fun e => e.2.map (·.2))).flatten

end HashProxy

/-- Modelled from the spec: `FirstKBytesProxy` lives in `catalog/proxy.rs`,
absent from src.  §4.5: *pending single* stores one `(ID, path)` with no
first-bytes read; *promoted* maps `FirstBytes → HashProxy`. -/
inductive FirstKBytesProxy where
  | pendingSingle (id : ID) (path : TPath)
  | promoted (map : List (List Nat × HashProxy))

namespace FirstKBytesProxy

/-- `FirstKBytesProxy::new(id, path)` as called by `FileCataloger::insert`:
the initial *pending single* state (§4.5). -/
def new (id : ID) (path : TPath) : FirstKBytesProxy :=
  pendingSingle id path

/-- Modelled from the spec: the first K bytes of the file at `p`, via the VFS;
a failing read is a panic. -/
def firstBytesOf (fs : TestFileSystem) (p : TPath) : Option (List Nat) :=
  match fs.get_file p with
  | Except.ok f =>
      match f.get_first_bytes with
      | Except.ok bs => some bs
      | Except.error _ => none
  | Except.error _ => none

/-- Modelled from the spec: file `(id, path)` with first bytes `fb` into a
promoted map — into the matching `HashProxy`, or a new
`HashProxy::PendingSingle` (§4.5). -/
def fileInto (fs : TestFileSystem) (m : List (List Nat × HashProxy))
    (fb : List Nat) (id : ID) (path : TPath) :
    Option (List (List Nat × HashProxy)) :=
  match alGet fb m with
  | none => some (alInsert fb (HashProxy.pendingSingle id path) m)
  | some hp => (hp.insert fs id path).map (fun hp2 => alInsert fb hp2 m)

/-- Modelled from the spec: `FirstKBytesProxy::insert` (§4.5).  In
*PendingSingle*, read the first bytes of both the stored and the new path and
file both into a fresh map; in *Promoted*, read the new path's first bytes and
file it in. -/
def insert (fs : TestFileSystem) (fkbp : FirstKBytesProxy) (id : ID)
    (path : TPath) : Option FirstKBytesProxy :=
  match fkbp with
  | pendingSingle id0 p0 =>
      match firstBytesOf fs p0, firstBytesOf fs path with
      | some fb0, some fb =>
          (fileInto fs [] fb0 id0 p0).bind (fun m0 =>
            (fileInto fs m0 fb id path).map promoted)
      | _, _ => none
  | promoted m =>
      match firstBytesOf fs path with
      | some fb => (fileInto fs m fb id path).map promoted
      | none => none

/-- Modelled from the spec: `FirstKBytesProxy::get_repeats` (§4.5) — nothing
in *PendingSingle*, the union of every child `HashProxy.get_repeats()` in
*Promoted*. -/
def get_repeats (fkbp : FirstKBytesProxy) : List Duplicates :=
  match fkbp with
  | pendingSingle _ _ => []
  | promoted m => (m.map (fun e => e.2.get_repeats)).flatten

end FirstKBytesProxy

/-- `FileCataloger` from `catalog/mod.rs`: `catalog: HashMap<u64,
FirstKBytesProxy>` plus the VFS handle. -/
structure FileCataloger where
  catalog : List (Nat × FirstKBytesProxy)
  vfs : TestFileSystem

namespace FileCataloger

/-- `FileCataloger::new(vfs)` -/
def new (vfs : TestFileSystem) : FileCataloger := ⟨[], vfs⟩

/-- `FileCataloger::insert(path)` from `catalog/mod.rs`: stat the file
(`get_file` then `get_metadata`; failures are `expect` panics, modelled as
`none`), compute `size` and `ID`, then either delegate to the occupied size
bucket or create a fresh `FirstKBytesProxy` in the vacant one. -/
def insert (fc : FileCataloger) (path : TPath) : Option FileCataloger :=
  match fc.vfs.get_file path with
  | Except.error _ => none
  | Except.ok file =>
      match file.get_metadata with
      | Except.error _ => none
      | Except.ok md =>
          let size := md.get_len
          let id : ID := ⟨md.id.dev, md.get_inode⟩
          match alGet size fc.catalog with
          | some fkbp =>
              (fkbp.insert fc.vfs id path).map
                (fun fkbp2 => { fc with catalog := alInsert size fkbp2 fc.catalog })
          | none =>
              some { fc with
                     catalog := alInsert size (FirstKBytesProxy.new id path) fc.catalog }

/-- `FileCataloger::get_repeats()` from `catalog/mod.rs`, with the iteration
order of `self.catalog.values()` made explicit: a `std::collections::HashMap`
with the default `RandomState` hasher yields its values in an order that
depends on the per-process random seed, so a run is modelled by the key order
`ord` it happens to produce (any permutation of the key set). -/
def get_repeatsIter (fc : FileCataloger) (ord : List Nat) : List Duplicates :=
  (ord.filterMap (fun k => alGet k fc.catalog)).foldl
    (fun all fkbp => all ++ fkbp.get_repeats) []

/-- A key order is one a `HashMap` iteration can produce: a permutation of the
key set. -/
def ValidIterOrder (fc : FileCataloger) (ord : List Nat) : Prop :=
  List.Perm ord (fc.catalog.map (·.1))

/-- `FileCataloger::get_repeats()` under the insertion order (one of the valid
iteration orders). -/
def get_repeats (fc : FileCataloger) : List Duplicates :=
  get_repeatsIter fc (fc.catalog.map (·.1))

end FileCataloger

/-! ## Concrete fixtures used by witnesses -/

def pathRoot : TPath := ⟨true, []⟩

def pathA : TPath := ⟨true, ["a"]⟩

def pathWB : TPath := ⟨true, ["w", "b"]⟩

def pathWXC : TPath := ⟨true, ["w", "x", "c"]⟩

/-! ## Claims -/

/-- C9: `PathSelect::reverse` is idempotent rather than a toggle — reversing
twice yields the same selector state, hence the same selection, as reversing
once; it never restores the default minimal-component behaviour. -/
theorem pathSelect_reverse_idempotent (s : PathSelect) (dups : Duplicates) :
    s.reverse.reverse = s.reverse ∧
      s.reverse.reverse.select dups = s.reverse.select dups :=
  ⟨rfl, rfl⟩

/-- C1: on a non-empty `Duplicates` group, `PathSelect::select` returns an
element of the group with minimal `components().count()`, and after
`reverse()` an element with maximal `components().count()`. -/
theorem pathSelect_select_min_max (fs : TestFileSystem) (dups : Duplicates)
    (h : dups.paths ≠ []) :
    (∃ p, (PathSelect.new fs).select dups = some p ∧ p ∈ dups.paths ∧
        ∀ q ∈ dups.paths, p.componentCount ≤ q.componentCount) ∧
      (∃ p, ((PathSelect.new fs).reverse).select dups = some p ∧ p ∈ dups.paths ∧
        ∀ q ∈ dups.paths, q.componentCount ≤ p.componentCount) := by
  obtain ⟨ps⟩ := dups
  match ps, h with
  | a :: rest, _ =>
      constructor
      · refine ⟨foldSelect (fun x acc => x.componentCount < acc.componentCount) a rest,
          rfl, foldSelect_mem _ a rest, ?_⟩
        intro q hq
        rcases List.mem_cons.mp hq with h1 | h1
        · rw [h1]; exact (foldSelect_min_le TPath.componentCount a rest).1
        · exact (foldSelect_min_le TPath.componentCount a rest).2 q h1
      · refine ⟨foldSelect (fun x acc => acc.componentCount ≤ x.componentCount) a rest,
          rfl, foldSelect_mem _ a rest, ?_⟩
        intro q hq
        rcases List.mem_cons.mp hq with h1 | h1
        · rw [h1]; exact (foldSelect_max_ge TPath.componentCount a rest).1
        · exact (foldSelect_max_ge TPath.componentCount a rest).2 q h1

/-- Witness for C1 at the `select_shortest`/`select_longest` fixture paths. -/
theorem pathSelect_select_min_max_witness :
    (Duplicates.mk [pathA, pathWB, pathWXC]).paths ≠ [] ∧
      ((∃ p, (PathSelect.new TestFileSystem.new).select ⟨[pathA, pathWB, pathWXC]⟩ = some p ∧
          p ∈ (Duplicates.mk [pathA, pathWB, pathWXC]).paths ∧
          ∀ q ∈ (Duplicates.mk [pathA, pathWB, pathWXC]).paths,
            p.componentCount ≤ q.componentCount) ∧
        (∃ p, ((PathSelect.new TestFileSystem.new).reverse).select ⟨[pathA, pathWB, pathWXC]⟩ = some p ∧
          p ∈ (Duplicates.mk [pathA, pathWB, pathWXC]).paths ∧
          ∀ q ∈ (Duplicates.mk [pathA, pathWB, pathWXC]).paths,
            q.componentCount ≤ p.componentCount)) :=
  ⟨by decide,
    pathSelect_select_min_max TestFileSystem.new ⟨[pathA, pathWB, pathWXC]⟩ (by decide)⟩

theorem zipOverwrite_replicate_eq_append (c : List Nat) (n : Nat)
    (h : c.length ≤ n) :
    zipOverwrite c (List.replicate n 0) = c ++ List.replicate (n - c.length) 0 := by
  induction c generalizing n with
  | nil => simp [zipOverwrite]
  | cons x xs ih =>
      cases n with
      | zero => simp at h
      | succ m =>
          simp only [List.replicate_succ, zipOverwrite, List.length_cons,
            Nat.succ_sub_succ, List.cons_append, List.cons.injEq, true_and]
          exact ih m (Nat.le_of_succ_le_succ h)

/-- C8: for a file whose contents are shorter than `FIRST_K_BYTES`,
`get_first_bytes` returns exactly `FIRST_K_BYTES` bytes: the contents followed
by zero padding. -/
theorem testFile_get_first_bytes_zero_padded (f : TestFile) (c : List Nat)
    (hc : f.contents = some c) (hlen : c.length < FIRST_K_BYTES) :
    ∃ bs, f.get_first_bytes = Except.ok bs ∧ bs.length = FIRST_K_BYTES ∧
      bs = c ++ List.replicate (FIRST_K_BYTES - c.length) 0 := by
  refine ⟨zipOverwrite c (List.replicate FIRST_K_BYTES 0), ?_, ?_, ?_⟩
  · simp [TestFile.get_first_bytes, hc]
  · rw [zipOverwrite_replicate_eq_append c FIRST_K_BYTES (le_of_lt hlen)]
    simp [Nat.add_sub_cancel' (le_of_lt hlen)]
  · exact zipOverwrite_replicate_eq_append c FIRST_K_BYTES (le_of_lt hlen)

/-- Witness for C8: a three-byte file is padded to 4096 bytes. -/
theorem testFile_get_first_bytes_zero_padded_witness :
    (TestFile.mk pathA (some [1, 2, 3]) FileType.file 0 none).contents = some [1, 2, 3] ∧
      ([1, 2, 3] : List Nat).length < FIRST_K_BYTES ∧
      ∃ bs, (TestFile.mk pathA (some [1, 2, 3]) FileType.file 0 none).get_first_bytes =
          Except.ok bs ∧ bs.length = FIRST_K_BYTES ∧
          bs = [1, 2, 3] ++ List.replicate (FIRST_K_BYTES - 3) 0 :=
  ⟨rfl, by decide,
    testFile_get_first_bytes_zero_padded _ [1, 2, 3] rfl (by decide)⟩

/-- C5: when the stat of a path fails — `get_file` errors, or the file's
`get_metadata` errors — `FileCataloger::insert` does not silently succeed: the
failure propagates (the `expect` panic, modelled as `none`) and no updated
catalog state is produced. -/
theorem fileCataloger_insert_stat_failure (fc : FileCataloger) (path : TPath)
    (h : (∃ e, fc.vfs.get_file path = Except.error e) ∨
      ∃ file, fc.vfs.get_file path = Except.ok file ∧
        ∃ e, file.get_metadata = Except.error e) :
    fc.insert path = none := by
  rcases h with ⟨e, he⟩ | ⟨file, hf, e, he⟩
  · simp [FileCataloger.insert, he]
  · simp [FileCataloger.insert, hf, he]

/-- Witness for C5: inserting a path absent from the VFS fails and produces no
catalog. -/
theorem fileCataloger_insert_stat_failure_witness :
    (TestFileSystem.new.get_file pathA = Except.error IoErr.notFound) ∧
      (FileCataloger.new TestFileSystem.new).insert pathA = none :=
  ⟨rfl, fileCataloger_insert_stat_failure (FileCataloger.new TestFileSystem.new)
    pathA (Or.inl ⟨IoErr.notFound, rfl⟩)⟩

theorem alInsert_eq_append {α β : Type} [DecidableEq α] (k : α) (v : β)
    (m : List (α × β)) (h : alGet k m = none) : alInsert k v m = m ++ [(k, v)] := by
  induction m with
  | nil => rfl
  | cons hd tl ih =>
      obtain ⟨k', v'⟩ := hd
      by_cases hk : k = k'
      · simp [alGet, hk] at h
      · simp [alGet, hk] at h
        simp [alInsert, hk, ih h]

theorem alInsert_keys_of_mem {α β : Type} [DecidableEq α] {k : α} (v : β)
    {w : β} (m : List (α × β)) (h : alGet k m = some w) :
    (alInsert k v m).map Prod.fst = m.map Prod.fst := by
  induction m with
  | nil => simp [alGet] at h
  | cons hd tl ih =>
      obtain ⟨k', v'⟩ := hd
      by_cases hk : k = k'
      · simp [alInsert, hk]
      · simp [alGet, hk] at h
        simp [alInsert, hk, ih h]

/-- C4: `FileCataloger::insert` on a statable path dispatches on the length
map: a vacant length gets a fresh `FirstKBytesProxy` in *pending single* state
holding the file's `(ID, path)` (appended as a new bucket); an occupied length
delegates `insert(ID, path)` to the existing proxy and leaves the bucket key
set unchanged. -/
theorem fileCataloger_insert_bucket_dispatch (fc : FileCataloger) (path : TPath)
    (file : TestFile) (md : TestMD)
    (hf : fc.vfs.get_file path = Except.ok file)
    (hm : file.get_metadata = Except.ok md) :
    (alGet md.get_len fc.catalog = none →
      fc.insert path = some { fc with catalog := fc.catalog ++
        [(md.get_len, FirstKBytesProxy.pendingSingle ⟨md.id.dev, md.get_inode⟩ path)] }) ∧
    ∀ fkbp, alGet md.get_len fc.catalog = some fkbp →
      (fc.insert path =
        (fkbp.insert fc.vfs ⟨md.id.dev, md.get_inode⟩ path).map
          (fun fkbp2 => { fc with catalog := alInsert md.get_len fkbp2 fc.catalog }) ∧
      ∀ fkbp2 : FirstKBytesProxy,
        (alInsert md.get_len fkbp2 fc.catalog).map Prod.fst = fc.catalog.map Prod.fst) := by
  constructor
  · intro hnone
    have hstep : fc.insert path = some { fc with catalog :=
        (alInsert md.get_len (FirstKBytesProxy.pendingSingle ⟨md.id.dev, md.get_inode⟩ path)
          fc.catalog) } := by
      simp [FileCataloger.insert, hf, hm, hnone, FirstKBytesProxy.new]
    rw [hstep, alInsert_eq_append _ _ _ hnone]
  · intro fkbp hsome
    constructor
    · simp [FileCataloger.insert, hf, hm, hsome]
    · intro fkbp2
      exact alInsert_keys_of_mem _ _ hsome

/-- A prebuilt regular test file with contents and consistent metadata, as the
unit tests build with `TestFile::new(..).with_contents(..).with_metadata(..)`. -/
def mkTestFile (p : TPath) (inode len : Nat) (cont : List Nat) : TestFile :=
  { path := p, contents := some cont, kind := FileType.file, inode := inode,
    metadata := some { len := len, creation := 0, kind := FileType.file,
                       id := ⟨0, inode⟩ } }

/-- Witness for C4: inserting into an empty catalog creates a pending-single
bucket at the file's length. -/
theorem fileCataloger_insert_bucket_dispatch_witness :
    ((FileCataloger.new (TestFileSystem.new.add (mkTestFile pathA 1 5 [1]))).vfs.get_file pathA =
        Except.ok (mkTestFile pathA 1 5 [1])) ∧
      ((mkTestFile pathA 1 5 [1]).get_metadata =
        Except.ok (TestMD.mk 5 0 FileType.file ⟨0, 1⟩)) ∧
      (FileCataloger.new (TestFileSystem.new.add (mkTestFile pathA 1 5 [1]))).insert pathA =
        some { FileCataloger.new (TestFileSystem.new.add (mkTestFile pathA 1 5 [1])) with
               catalog := [] ++ [(5, FirstKBytesProxy.pendingSingle ⟨0, 1⟩ pathA)] } :=
  ⟨rfl, rfl,
    (fileCataloger_insert_bucket_dispatch
      (FileCataloger.new (TestFileSystem.new.add (mkTestFile pathA 1 5 [1]))) pathA
      (mkTestFile pathA 1 5 [1]) (TestMD.mk 5 0 FileType.file ⟨0, 1⟩) rfl rfl).1 rfl⟩

/-- C10: `TestFileSystem::list_dir(p)` never errors, and its listing holds the
files whose parent is `p` **and also every file whose path has no parent**
(such as the root `/` — so the root entry appears in every directory's
listing), plus the symlinks whose parent is `p`, and nothing else. -/
theorem testfs_list_dir_total_and_parentless (fs : TestFileSystem) (p : TPath) :
    ∃ l, fs.list_dir p = Except.ok l ∧
      (∀ e ∈ fs.files, e.1.parent = none → e.2 ∈ l) ∧
      (∀ e ∈ fs.files, e.1.parent = some p → e.2 ∈ l) ∧
      ∀ tf ∈ l,
        (∃ e ∈ fs.files, e.2 = tf ∧ (e.1.parent = some p ∨ e.1.parent = none)) ∨
        ∃ e ∈ fs.symlinks, e.2.1 = tf ∧ e.1.parent = some p := by
  refine ⟨_, rfl, ?_, ?_, ?_⟩
  · intro e he hp
    simp only [List.mem_append, List.mem_map, List.mem_filter]
    exact Or.inl ⟨e, ⟨he, by simp [hp]⟩, rfl⟩
  · intro e he hp
    simp only [List.mem_append, List.mem_map, List.mem_filter]
    exact Or.inl ⟨e, ⟨he, by simp [hp]⟩, rfl⟩
  · intro tf htf
    simp only [List.mem_append, List.mem_map, List.mem_filter] at htf
    rcases htf with ⟨e, ⟨he, hpred⟩, rfl⟩ | ⟨e, ⟨he, hpred⟩, rfl⟩
    · exact Or.inl ⟨e, he, rfl, of_decide_eq_true hpred⟩
    · exact Or.inr ⟨e, he, rfl, of_decide_eq_true hpred⟩

/-- Witness for C10: in a filesystem with `/` and `/a`, listing the (empty)
directory `/a` still reports the root entry, without error. -/
theorem testfs_list_dir_total_and_parentless_witness :
    ∃ l, ((TestFileSystem.new.create_dir pathRoot).create_file pathA).list_dir pathA =
        Except.ok l ∧
      (∀ e ∈ ((TestFileSystem.new.create_dir pathRoot).create_file pathA).files,
        e.1.parent = none → e.2 ∈ l) ∧
      (∀ e ∈ ((TestFileSystem.new.create_dir pathRoot).create_file pathA).files,
        e.1.parent = some pathA → e.2 ∈ l) ∧
      ∀ tf ∈ l,
        (∃ e ∈ ((TestFileSystem.new.create_dir pathRoot).create_file pathA).files,
          e.2 = tf ∧ (e.1.parent = some pathA ∨ e.1.parent = none)) ∨
        ∃ e ∈ ((TestFileSystem.new.create_dir pathRoot).create_file pathA).symlinks,
          e.2.1 = tf ∧ e.1.parent = some pathA :=
  testfs_list_dir_total_and_parentless
    ((TestFileSystem.new.create_dir pathRoot).create_file pathA) pathA

def pathB : TPath := ⟨true, ["b"]⟩

def pathC : TPath := ⟨true, ["c"]⟩

/-- A file `/c`, a symlink `/b → /c` and a symlink `/a → /b`. -/
def fsChain : TestFileSystem :=
  ((TestFileSystem.new.create_file pathC).create_symlink pathB pathC).create_symlink
    pathA pathB

/-- C6 (failing input): `get_metadata` follows exactly one symlink hop.  In
`fsChain`, `/b → /c` resolves to the metadata of the file `/c`, but
`/a → /b → /c` — a chain of two symlinks whose ultimate target exists —
errors with `NotFound`, because the `while` loop in `lookup` walks the chain
only to distinguish a loop error from `NotFound` and never consults the file
map at the intermediate targets. -/
theorem testfs_get_metadata_symlink_chain :
    (alGet pathC fsChain.files).isSome = true ∧
      fsChain.get_metadata pathB =
        Except.ok (TestMD.mk 0 0 FileType.file (ID.mk 0 0)) ∧
      fsChain.get_metadata pathA = Except.error IoErr.notFound := by
  refine ⟨rfl, rfl, rfl⟩

inductive FsOp where
  | mkFile (p : TPath)
  | mkDir (p : TPath)
  | mkLink (p target : TPath)
  deriving DecidableEq, Repr

/-- The path at which an operation creates its entry. -/
def FsOp.path : FsOp → TPath
  | FsOp.mkFile p => p
  | FsOp.mkDir p => p
  | FsOp.mkLink p _ => p

/-- Run one `create_file` / `create_dir` / `create_symlink` call. -/
def applyOp (fs : TestFileSystem) : FsOp → TestFileSystem
  | FsOp.mkFile p => fs.create_file p
  | FsOp.mkDir p => fs.create_dir p
  | FsOp.mkLink p t => fs.create_symlink p t

/-- Run a sequence of create calls. -/
def runOps (fs : TestFileSystem) : List FsOp → TestFileSystem
  | [] => fs
  | op :: ops => runOps (applyOp fs op) ops

/-- The inode recorded on the entry stored at `p` (file or symlink). -/
def entryInode (fs : TestFileSystem) (p : TPath) : Option Nat :=
  match alGet p fs.files with
  | some tf => some tf.inode
  | none => (alGet p fs.symlinks).map (fun e => e.1.inode)

/-- `p` is a key of neither map. -/
def freshIn (fs : TestFileSystem) (p : TPath) : Prop :=
  alGet p fs.files = none ∧ alGet p fs.symlinks = none

theorem applyOp_get_next_inode (fs : TestFileSystem) (op : FsOp)
    (h : freshIn fs op.path) :
    (applyOp fs op).get_next_inode = fs.get_next_inode + 1 := by
  cases op with
  | mkFile p =>
      have h1 : alGet p fs.files = none := h.1
      show (alInsert p _ fs.files).length + fs.symlinks.length =
        fs.files.length + fs.symlinks.length + 1
      rw [alInsert_length_of_notMem _ _ _ h1]
      omega
  | mkDir p =>
      have h1 : alGet p fs.files = none := h.1
      show (alInsert p _ fs.files).length + fs.symlinks.length =
        fs.files.length + fs.symlinks.length + 1
      rw [alInsert_length_of_notMem _ _ _ h1]
      omega
  | mkLink p t =>
      have h2 : alGet p fs.symlinks = none := h.2
      show fs.files.length + (alInsert p _ fs.symlinks).length =
        fs.files.length + fs.symlinks.length + 1
      rw [alInsert_length_of_notMem _ _ _ h2]
      omega

theorem applyOp_entryInode_self (fs : TestFileSystem) (op : FsOp)
    (h : freshIn fs op.path) :
    entryInode (applyOp fs op) op.path = some fs.get_next_inode := by
  cases op with
  | mkFile p =>
      simp [applyOp, TestFileSystem.create_file, TestFileSystem.create_regular,
        entryInode, FsOp.path, alGet_insert_self]
  | mkDir p =>
      simp [applyOp, TestFileSystem.create_dir, TestFileSystem.create_regular,
        entryInode, FsOp.path, alGet_insert_self]
  | mkLink p t =>
      have h1 : alGet p fs.files = none := h.1
      simp [applyOp, TestFileSystem.create_symlink, entryInode, FsOp.path, h1,
        alGet_insert_self]

theorem applyOp_entryInode_other (fs : TestFileSystem) (op : FsOp) (q : TPath)
    (h : q ≠ op.path) :
    entryInode (applyOp fs op) q = entryInode fs q := by
  cases op with
  | mkFile p =>
      simp only [FsOp.path] at h
      simp [applyOp, TestFileSystem.create_file, TestFileSystem.create_regular,
        entryInode, alGet_insert_ne _ _ h]
  | mkDir p =>
      simp only [FsOp.path] at h
      simp [applyOp, TestFileSystem.create_dir, TestFileSystem.create_regular,
        entryInode, alGet_insert_ne _ _ h]
  | mkLink p t =>
      simp only [FsOp.path] at h
      simp [applyOp, TestFileSystem.create_symlink, entryInode,
        alGet_insert_ne _ _ h]

theorem applyOp_freshIn (fs : TestFileSystem) (op : FsOp) (q : TPath)
    (hq : freshIn fs q) (h : q ≠ op.path) : freshIn (applyOp fs op) q := by
  cases op with
  | mkFile p =>
      simp only [FsOp.path] at h
      exact ⟨by simpa [applyOp, TestFileSystem.create_file,
        TestFileSystem.create_regular, alGet_insert_ne _ _ h] using hq.1, hq.2⟩
  | mkDir p =>
      simp only [FsOp.path] at h
      exact ⟨by simpa [applyOp, TestFileSystem.create_dir,
        TestFileSystem.create_regular, alGet_insert_ne _ _ h] using hq.1, hq.2⟩
  | mkLink p t =>
      simp only [FsOp.path] at h
      exact ⟨hq.1, by simpa [applyOp, TestFileSystem.create_symlink,
        alGet_insert_ne _ _ h] using hq.2⟩

theorem runOps_entryInode_preserved (ops : List FsOp) (q : TPath) :
    ∀ fs : TestFileSystem, (∀ op ∈ ops, q ≠ op.path) →
      entryInode (runOps fs ops) q = entryInode fs q := by
  induction ops with
  | nil => intro fs _; rfl
  | cons op ops ih =>
      intro fs h
      show entryInode (runOps (applyOp fs op) ops) q = entryInode fs q
      rw [ih (applyOp fs op) (fun o ho => h o (List.mem_cons_of_mem _ ho))]
      exact applyOp_entryInode_other fs op q (h op (List.mem_cons_self _ _))

theorem runOps_inode_assignment (ops : List FsOp) :
    ∀ fs : TestFileSystem, (ops.map FsOp.path).Nodup →
      (∀ op ∈ ops, freshIn fs op.path) →
      ∀ i (hi : i < ops.length),
        entryInode (runOps fs ops) (ops.get ⟨i, hi⟩).path =
          some (fs.get_next_inode + i) := by
  induction ops with
  | nil => intro fs _ _ i hi; exact absurd hi (by simp)
  | cons op ops ih =>
      intro fs hnd hfresh i hi
      have hhead : op.path ∉ ops.map FsOp.path := (List.nodup_cons.mp hnd).1
      cases i with
      | zero =>
          have hpres : ∀ o ∈ ops, op.path ≠ o.path := by
            intro o ho hEq
            exact hhead (hEq ▸ List.mem_map_of_mem FsOp.path ho)
          show entryInode (runOps (applyOp fs op) ops) op.path = _
          rw [runOps_entryInode_preserved ops op.path (applyOp fs op) hpres,
            applyOp_entryInode_self fs op (hfresh op (List.mem_cons_self _ _))]
          rfl
      | succ j =>
          have h2 : ∀ o ∈ ops, freshIn (applyOp fs op) o.path := by
            intro o ho
            refine applyOp_freshIn fs op o.path
              (hfresh o (List.mem_cons_of_mem _ ho)) ?_
            intro hEq
            exact hhead (hEq ▸ List.mem_map_of_mem FsOp.path ho)
          have h3 := ih (applyOp fs op) (List.nodup_cons.mp hnd).2 h2 j
            (Nat.lt_of_succ_lt_succ hi)
          rw [applyOp_get_next_inode fs op
            (hfresh op (List.mem_cons_self _ _))] at h3
          show entryInode (runOps (applyOp fs op) ops)
            ((op :: ops).get ⟨j + 1, hi⟩).path = some (fs.get_next_inode + (j + 1))
          rw [List.get_cons_succ, h3]
          congr 1
          omega

/-- C7: starting from the empty test filesystem, any sequence of
distinct-path `create_file` / `create_dir` / `create_symlink` calls assigns
inodes densely from 0 in insertion order: the entry created by the i-th call
(0-based) carries inode i. -/
theorem testfs_inodes_dense (ops : List FsOp)
    (hnd : (ops.map FsOp.path).Nodup) :
    ∀ i (hi : i < ops.length),
      entryInode (runOps TestFileSystem.new ops) (ops.get ⟨i, hi⟩).path = some i := by
  intro i hi
  have h := runOps_inode_assignment ops TestFileSystem.new hnd
    (fun op _ => ⟨rfl, rfl⟩) i hi
  simpa [TestFileSystem.get_next_inode, TestFileSystem.new] using h

def opsWitness : List FsOp :=
  [FsOp.mkDir pathRoot, FsOp.mkFile pathA, FsOp.mkLink pathB pathA]

/-- Witness for C7: after `mkdir /`, `touch /a`, `ln -s /a /b`, the symlink
`/b` — the third created entry — carries inode 2. -/
theorem testfs_inodes_dense_witness :
    (opsWitness.map FsOp.path).Nodup ∧ 2 < opsWitness.length ∧
      entryInode (runOps TestFileSystem.new opsWitness) pathB = some 2 :=
  ⟨by decide, by decide, testfs_inodes_dense opsWitness (by decide) 2 (by decide)⟩

theorem scorePaths_eq_some (fs : TestFileSystem) (ps : List TPath)
    (h : ∀ p ∈ ps, (dateScore fs p).isSome = true) :
    ∃ l, scorePaths fs ps = some l ∧ l.map Prod.fst = ps ∧
      ∀ pr ∈ l, dateScore fs pr.1 = some pr.2 := by
  induction ps with
  | nil => exact ⟨[], rfl, rfl, by simp⟩
  | cons p ps ih =>
      obtain ⟨t, ht⟩ := Option.isSome_iff_exists.mp
        (h p (List.mem_cons_self _ _))
      obtain ⟨l, hl, hmap, hsc⟩ := ih (fun q hq => h q (List.mem_cons_of_mem _ hq))
      refine ⟨(p, t) :: l, ?_, ?_, ?_⟩
      · simp [scorePaths, ht, hl]
      · simp [hmap]
      · intro pr hpr
        rcases List.mem_cons.mp hpr with h1 | h1
        · rw [h1]; exact ht
        · exact hsc pr h1

/-- C3: on a non-empty group all of whose paths resolve through the VFS,
`DateSelect::select` returns a member whose creation timestamp is maximal over
the group, and `DateSelect::reverse().select` one whose creation timestamp is
minimal. -/
theorem dateSelect_select_newest_oldest (fs : TestFileSystem) (dups : Duplicates)
    (hne : dups.paths ≠ [])
    (hres : ∀ p ∈ dups.paths, (dateScore fs p).isSome = true) :
    (∃ p t, (DateSelect.new fs).select dups = some p ∧ p ∈ dups.paths ∧
        dateScore fs p = some t ∧
        ∀ q ∈ dups.paths, ∀ tq, dateScore fs q = some tq → tq ≤ t) ∧
      ∃ p t, ((DateSelect.new fs).reverse).select dups = some p ∧ p ∈ dups.paths ∧
        dateScore fs p = some t ∧
        ∀ q ∈ dups.paths, ∀ tq, dateScore fs q = some tq → t ≤ tq := by
  obtain ⟨l, hl, hmap, hsc⟩ := scorePaths_eq_some fs dups.paths hres
  match l, hmap with
  | [], hmap => exact absurd hmap.symm hne
  | a :: rest, hmap =>
      constructor
      · set w := foldSelect (fun x acc : TPath × Nat => acc.2 ≤ x.2) a rest with hw
        have hwmem : w ∈ a :: rest := foldSelect_mem _ a rest
        refine ⟨w.1, w.2, ?_, ?_, hsc w hwmem, ?_⟩
        · show ((scorePaths fs dups.paths).bind fun l =>
            (maxByScore Prod.snd l).map Prod.fst) = some w.1
          rw [hl]
          rfl
        · rw [hmap.symm]
          exact List.mem_map_of_mem Prod.fst hwmem
        · intro q hq tq htq
          rw [hmap.symm] at hq
          obtain ⟨pr, hpr, hpr1⟩ := List.mem_map.mp hq
          have hprsc := hsc pr hpr
          rw [hpr1, htq] at hprsc
          have htq2 : pr.2 = tq := Option.some.inj hprsc.symm
          rw [htq2.symm]
          rcases List.mem_cons.mp hpr with h1 | h1
          · rw [h1]; exact (foldSelect_max_ge Prod.snd a rest).1
          · exact (foldSelect_max_ge Prod.snd a rest).2 pr h1
      · set w := foldSelect (fun x acc : TPath × Nat => x.2 < acc.2) a rest with hw
        have hwmem : w ∈ a :: rest := foldSelect_mem _ a rest
        refine ⟨w.1, w.2, ?_, ?_, hsc w hwmem, ?_⟩
        · show ((scorePaths fs dups.paths).bind fun l =>
            (minByScore Prod.snd l).map Prod.fst) = some w.1
          rw [hl]
          rfl
        · rw [hmap.symm]
          exact List.mem_map_of_mem Prod.fst hwmem
        · intro q hq tq htq
          rw [hmap.symm] at hq
          obtain ⟨pr, hpr, hpr1⟩ := List.mem_map.mp hq
          have hprsc := hsc pr hpr
          rw [hpr1, htq] at hprsc
          have htq2 : pr.2 = tq := Option.some.inj hprsc.symm
          rw [htq2.symm]
          rcases List.mem_cons.mp hpr with h1 | h1
          · rw [h1]; exact (foldSelect_min_le Prod.snd a rest).1
          · exact (foldSelect_min_le Prod.snd a rest).2 pr h1

def pathXB : TPath := ⟨true, ["x", "b"]⟩

def pathXYC : TPath := ⟨true, ["x", "y", "c"]⟩

def pathXYZD : TPath := ⟨true, ["x", "y", "z", "d"]⟩

/-- A file with metadata carrying a given creation time, as the
`select_newest` / `select_oldest` tests build. -/
def dateFile (p : TPath) (t : Nat) : TestFile :=
  { path := p, contents := none, kind := FileType.file, inode := 0,
    metadata := some { len := 0, creation := t, kind := FileType.file,
                       id := ⟨0, 0⟩ } }

/-- The `select_newest`/`select_oldest` fixture: creation times 1..4 seconds
after the epoch. -/
def fsDate : TestFileSystem :=
  (((TestFileSystem.new.add (dateFile pathA 1)).add (dateFile pathXB 2)).add
    (dateFile pathXYC 3)).add (dateFile pathXYZD 4)

/-- Witness for C3 at the `select_newest`/`select_oldest` fixture. -/
theorem dateSelect_select_newest_oldest_witness :
    (Duplicates.mk [pathA, pathXB, pathXYC, pathXYZD]).paths ≠ [] ∧
      (∀ p ∈ (Duplicates.mk [pathA, pathXB, pathXYC, pathXYZD]).paths,
        (dateScore fsDate p).isSome = true) ∧
      ((∃ p t, (DateSelect.new fsDate).select ⟨[pathA, pathXB, pathXYC, pathXYZD]⟩ =
            some p ∧
          p ∈ (Duplicates.mk [pathA, pathXB, pathXYC, pathXYZD]).paths ∧
          dateScore fsDate p = some t ∧
          ∀ q ∈ (Duplicates.mk [pathA, pathXB, pathXYC, pathXYZD]).paths,
            ∀ tq, dateScore fsDate q = some tq → tq ≤ t) ∧
        ∃ p t, ((DateSelect.new fsDate).reverse).select
            ⟨[pathA, pathXB, pathXYC, pathXYZD]⟩ = some p ∧
          p ∈ (Duplicates.mk [pathA, pathXB, pathXYC, pathXYZD]).paths ∧
          dateScore fsDate p = some t ∧
          ∀ q ∈ (Duplicates.mk [pathA, pathXB, pathXYC, pathXYZD]).paths,
            ∀ tq, dateScore fsDate q = some tq → t ≤ tq) :=
  ⟨by decide, by decide,
    dateSelect_select_newest_oldest fsDate ⟨[pathA, pathXB, pathXYC, pathXYZD]⟩
      (by decide) (by decide)⟩

deriving instance DecidableEq for HashProxy

deriving instance DecidableEq for FirstKBytesProxy

deriving instance DecidableEq for FileCataloger

def pathD : TPath := ⟨true, ["d"]⟩

/-- Two duplicate pairs at two distinct sizes: `/a`,`/b` (1 byte, identical
contents, inodes 1 and 2) and `/c`,`/d` (2 bytes, identical contents, inodes
3 and 4). -/
def fsCat : TestFileSystem :=
  (((TestFileSystem.new.add (mkTestFile pathA 1 1 [7])).add
    (mkTestFile pathB 2 1 [7])).add (mkTestFile pathC 3 2 [8, 9])).add
    (mkTestFile pathD 4 2 [8, 9])

/-- The catalog built by inserting `/a`, `/b`, `/c`, `/d` in that order. -/
def fcCat : Option FileCataloger :=
  ((((FileCataloger.new fsCat).insert pathA).bind fun fc => fc.insert pathB).bind
    fun fc => fc.insert pathC).bind fun fc => fc.insert pathD


theorem alGet_nil {α β : Type} [DecidableEq α] (k : α) :
    alGet k ([] : List (α × β)) = none := rfl

theorem alGet_head {α β : Type} [DecidableEq α] (k : α) (v : β)
    (m : List (α × β)) : alGet k ((k, v) :: m) = some v := by
  simp [alGet]

theorem alInsert_head {α β : Type} [DecidableEq α] (k : α) (v w : β)
    (m : List (α × β)) : alInsert k v ((k, w) :: m) = (k, v) :: m := by
  simp [alInsert]

/-- The first-K-bytes key of a file with the given contents. -/
def fbOf (cont : List Nat) : List Nat :=
  zipOverwrite cont (List.replicate FIRST_K_BYTES 0)

def fcCat1 : FileCataloger :=
  ⟨[(1, FirstKBytesProxy.pendingSingle ⟨0, 1⟩ pathA)], fsCat⟩

def hpAB : HashProxy :=
  HashProxy.promoted [([7], [(⟨0, 1⟩, ⟨[pathA]⟩), (⟨0, 2⟩, ⟨[pathB]⟩)])]

def fcCat2 : FileCataloger :=
  ⟨[(1, FirstKBytesProxy.promoted [(fbOf [7], hpAB)])], fsCat⟩

def fcCat3 : FileCataloger :=
  ⟨[(1, FirstKBytesProxy.promoted [(fbOf [7], hpAB)]),
    (2, FirstKBytesProxy.pendingSingle ⟨0, 3⟩ pathC)], fsCat⟩

def hpCD : HashProxy :=
  HashProxy.promoted [([8, 9], [(⟨0, 3⟩, ⟨[pathC]⟩), (⟨0, 4⟩, ⟨[pathD]⟩)])]

def fcCat4 : FileCataloger :=
  ⟨[(1, FirstKBytesProxy.promoted [(fbOf [7], hpAB)]),
    (2, FirstKBytesProxy.promoted [(fbOf [8, 9], hpCD)])], fsCat⟩

theorem fcCat_step1 : (FileCataloger.new fsCat).insert pathA = some fcCat1 := by
  have hgf : fsCat.get_file pathA = Except.ok (mkTestFile pathA 1 1 [7]) := rfl
  have hmd : (mkTestFile pathA 1 1 [7]).get_metadata =
      Except.ok (TestMD.mk 1 0 FileType.file ⟨0, 1⟩) := rfl
  simp only [FileCataloger.insert, hgf, hmd, TestMD.get_len, TestMD.get_inode,
    FileCataloger.new, alGet_nil, FirstKBytesProxy.new, alInsert]
  rfl

theorem fc_insert_occupied (fc : FileCataloger) (path : TPath) (file : TestFile)
    (md : TestMD) (fkbp : FirstKBytesProxy)
    (hgf : fc.vfs.get_file path = Except.ok file)
    (hmd : file.get_metadata = Except.ok md)
    (hb : alGet md.len fc.catalog = some fkbp) :
    fc.insert path =
      (fkbp.insert fc.vfs ⟨md.id.dev, md.id.inode⟩ path).map
        (fun fkbp2 => ⟨alInsert md.len fkbp2 fc.catalog, fc.vfs⟩) := by
  simp only [FileCataloger.insert, hgf, hmd, TestMD.get_len, TestMD.get_inode, hb]

theorem fc_insert_vacant (fc : FileCataloger) (path : TPath) (file : TestFile)
    (md : TestMD)
    (hgf : fc.vfs.get_file path = Except.ok file)
    (hmd : file.get_metadata = Except.ok md)
    (hb : alGet md.len fc.catalog = none) :
    fc.insert path = some ⟨alInsert md.len
      (FirstKBytesProxy.new ⟨md.id.dev, md.id.inode⟩ path) fc.catalog, fc.vfs⟩ := by
  simp only [FileCataloger.insert, hgf, hmd, TestMD.get_len, TestMD.get_inode, hb]

theorem fkbp_insert_pending (fs : TestFileSystem) (id0 : ID) (p0 : TPath)
    (id : ID) (path : TPath) (fb0 fb : List Nat)
    (h0 : FirstKBytesProxy.firstBytesOf fs p0 = some fb0)
    (h1 : FirstKBytesProxy.firstBytesOf fs path = some fb) :
    (FirstKBytesProxy.pendingSingle id0 p0).insert fs id path =
      (FirstKBytesProxy.fileInto fs [] fb0 id0 p0).bind
        (fun m0 => (FirstKBytesProxy.fileInto fs m0 fb id path).map
          FirstKBytesProxy.promoted) := by
  simp only [FirstKBytesProxy.insert, h0, h1]

theorem fkbp_fileInto_nil (fs : TestFileSystem) (fb : List Nat) (id : ID)
    (path : TPath) :
    FirstKBytesProxy.fileInto fs [] fb id path =
      some [(fb, HashProxy.pendingSingle id path)] := rfl

theorem fkbp_fileInto_head (fs : TestFileSystem) (fb : List Nat)
    (hp : HashProxy) (m : List (List Nat × HashProxy)) (id : ID) (path : TPath) :
    FirstKBytesProxy.fileInto fs ((fb, hp) :: m) fb id path =
      (hp.insert fs id path).map (fun hp2 => (fb, hp2) :: m) := by
  simp only [FirstKBytesProxy.fileInto, alGet_head]
  cases h : hp.insert fs id path with
  | none => rfl
  | some hp2 => simp [alInsert_head]

theorem fcCat_step2 : fcCat1.insert pathB = some fcCat2 := by
  have hhp : (HashProxy.pendingSingle ⟨0, 1⟩ pathA).insert fsCat ⟨0, 2⟩ pathB =
      some hpAB := rfl
  have hfk : (FirstKBytesProxy.pendingSingle ⟨0, 1⟩ pathA).insert fsCat ⟨0, 2⟩ pathB =
      some (FirstKBytesProxy.promoted [(fbOf [7], hpAB)]) := by
    rw [fkbp_insert_pending fsCat ⟨0, 1⟩ pathA ⟨0, 2⟩ pathB (fbOf [7]) (fbOf [7])
        rfl rfl,
      fkbp_fileInto_nil, Option.some_bind, fkbp_fileInto_head, hhp]
    rfl
  refine (fc_insert_occupied fcCat1 pathB (mkTestFile pathB 2 1 [7])
    (TestMD.mk 1 0 FileType.file ⟨0, 2⟩)
    (FirstKBytesProxy.pendingSingle ⟨0, 1⟩ pathA) rfl rfl rfl).trans ?_
  show ((FirstKBytesProxy.pendingSingle ⟨0, 1⟩ pathA).insert fsCat ⟨0, 2⟩ pathB).map
      (fun fkbp2 => FileCataloger.mk (alInsert 1 fkbp2 fcCat1.catalog) fsCat) =
    some fcCat2
  rw [hfk]
  rfl

theorem fcCat_step3 : fcCat2.insert pathC = some fcCat3 := by
  refine (fc_insert_vacant fcCat2 pathC (mkTestFile pathC 3 2 [8, 9])
    (TestMD.mk 2 0 FileType.file ⟨0, 3⟩) rfl rfl rfl).trans ?_
  rfl

theorem fcCat_step4 : fcCat3.insert pathD = some fcCat4 := by
  have hhp : (HashProxy.pendingSingle ⟨0, 3⟩ pathC).insert fsCat ⟨0, 4⟩ pathD =
      some hpCD := rfl
  have hfk : (FirstKBytesProxy.pendingSingle ⟨0, 3⟩ pathC).insert fsCat ⟨0, 4⟩ pathD =
      some (FirstKBytesProxy.promoted [(fbOf [8, 9], hpCD)]) := by
    rw [fkbp_insert_pending fsCat ⟨0, 3⟩ pathC ⟨0, 4⟩ pathD (fbOf [8, 9])
        (fbOf [8, 9]) rfl rfl,
      fkbp_fileInto_nil, Option.some_bind, fkbp_fileInto_head, hhp]
    rfl
  refine (fc_insert_occupied fcCat3 pathD (mkTestFile pathD 4 2 [8, 9])
    (TestMD.mk 2 0 FileType.file ⟨0, 4⟩)
    (FirstKBytesProxy.pendingSingle ⟨0, 3⟩ pathC) rfl rfl rfl).trans ?_
  show ((FirstKBytesProxy.pendingSingle ⟨0, 3⟩ pathC).insert fsCat ⟨0, 4⟩ pathD).map
      (fun fkbp2 => FileCataloger.mk (alInsert 2 fkbp2 fcCat3.catalog) fsCat) =
    some fcCat4
  rw [hfk]
  rfl

/-- C2 (failing input): the insert sequence `/a, /b, /c, /d` succeeds and
yields a catalog with two size buckets (keys 1 and 2), each holding one
duplicate group.  Both `[1, 2]` and `[2, 1]` are iteration orders the
`HashMap` behind `catalog.values()` can produce (each is a permutation of the
key set — which one a given run sees depends on the per-process `RandomState`
seed), and they make `get_repeats` return the two groups in different orders,
so the output is not the same on every run. -/
theorem fileCataloger_get_repeats_order_dependent :
    fcCat = some fcCat4 ∧
      FileCataloger.ValidIterOrder fcCat4 [1, 2] ∧
      FileCataloger.ValidIterOrder fcCat4 [2, 1] ∧
      FileCataloger.get_repeatsIter fcCat4 [1, 2] ≠
        FileCataloger.get_repeatsIter fcCat4 [2, 1] := by
  refine ⟨?_, ?_, ?_, ?_⟩
  · show ((((FileCataloger.new fsCat).insert pathA).bind fun fc =>
      fc.insert pathB).bind fun fc => fc.insert pathC).bind
        (fun fc => fc.insert pathD) = some fcCat4
    rw [fcCat_step1, Option.some_bind, fcCat_step2, Option.some_bind,
      fcCat_step3, Option.some_bind, fcCat_step4]
  · show List.Perm [1, 2] (fcCat4.catalog.map (·.1))
    rw [show fcCat4.catalog.map (·.1) = [1, 2] from rfl]
  · show List.Perm [2, 1] (fcCat4.catalog.map (·.1))
    rw [show fcCat4.catalog.map (·.1) = [1, 2] from rfl]
    exact List.Perm.swap 1 2 []
  · have h12 : FileCataloger.get_repeatsIter fcCat4 [1, 2] =
        [⟨[pathA]⟩, ⟨[pathB]⟩, ⟨[pathC]⟩, ⟨[pathD]⟩] := rfl
    have h21 : FileCataloger.get_repeatsIter fcCat4 [2, 1] =
        [⟨[pathC]⟩, ⟨[pathD]⟩, ⟨[pathA]⟩, ⟨[pathB]⟩] := rfl
    rw [h12, h21]
    intro hfalse
    exact absurd (List.cons.inj hfalse).1 (by decide)
